import Mathlib

/-!
# Verification of the renumbering / CSR / SSSP cores of the cugraph notebooks

The repository consists of two demonstration notebooks
(`notebooks/structure/Renumber-2.ipynb` and `notebooks/traversal/SSSP.ipynb`)
that call the graph library as a black box.  The algorithmic cores they
exercise (vertex renumbering, CSR graph construction, single-source shortest
paths) are specified in the repository's specification; the notebooks contain
the path-reconstruction loop as actual source code.  This file embeds those
components and proves the specified properties about them.

Identifiers are embedded as natural numbers (the notebooks convert IP-address
strings to unsigned integers before renumbering).  Edge weights, `f64` in the
specification, are embedded as rationals; `+infinity` distances are the `none`
case of `Option ℚ`.
-/

namespace Cugraph

/-- Modelled from the spec: error kind of the renumbering engine, raised when
the number of distinct identifiers exceeds the maximum representable dense
index. -/
inductive RenumberError where
  | IdentifierOverflow
deriving DecidableEq

/-- Modelled from the spec: per-query error kinds of the SSSP engine. -/
inductive SSSPError where
  | InvalidSource
  | NegativeWeight
deriving DecidableEq

/-! ## Edge Ingestion & Renumbering Engine

Modelled from the spec (the renumbering engine itself is not part of the
repository sources; the notebooks only call `cugraph.renumber`): collect the
set of distinct identifiers across both the source and the destination
columns and assign dense indices in sorted order (the spec's RECOMMENDED
deterministic choice).  The mapping is exposed, as in the notebook's
`mapping` return value, as the list of original identifiers indexed by their
new dense index. -/

/-- Modelled from the spec: the distinct identifiers observed across both
edge-endpoint columns, in increasing order.  Its length is `n`, the number of
distinct identifiers. -/
def idList (src dst : List ℕ) : List ℕ :=
  List.insertionSort (· ≤ ·) ((src ++ dst).dedup)

/-- Modelled from the spec: number of distinct identifiers across both
columns. -/
def numDistinct (src dst : List ℕ) : ℕ :=
  (idList src dst).length

/-- Modelled from the spec: dense index assigned to an original identifier
(its position in the sorted distinct-identifier list). -/
def toDense (src dst : List ℕ) (id : ℕ) : ℕ :=
  (idList src dst).indexOf id

/-- Modelled from the spec: original identifier recovered from a dense
index. -/
def toOriginal (src dst : List ℕ) (i : ℕ) : ℕ :=
  (idList src dst).getD i 0

/-- Modelled from the spec: the renumbering engine.  Fails with
`IdentifierOverflow` when the number of distinct identifiers exceeds the
maximum representable dense index `2 ^ 32 - 1`; otherwise returns the two
parallel renumbered sequences together with the dense-to-original mapping
list. -/
def renumber (src dst : List ℕ) : Except RenumberError (List ℕ × List ℕ × List ℕ) :=
  if 2 ^ 32 - 1 < numDistinct src dst then
    .error .IdentifierOverflow
  else
    .ok (src.map (toDense src dst), dst.map (toDense src dst), idList src dst)

/-! ## CSR Graph Builder

Modelled from the spec: a `CSRGraph` stores `offsets` (n+1 entries),
`neighbors` and `weights` (parallel, m entries each).  The functional
counting-sort construction below places, for each vertex `i` in increasing
order, the neighbor/weight pairs of the edges whose source is `i`, in input
order — the stable placement produced by the spec's two-pass counting-sort
construction. -/

structure CSRGraph where
  n : ℕ
  offsets : List ℕ
  neighbors : List ℕ
  weights : List ℚ
deriving DecidableEq

/-- Modelled from the spec: CSR construction from renumbered edges
`(source, destination, weight)`.  `offsets[i]` counts the edges whose source
is below `i`; the neighbor and weight sequences list each vertex's out-edges
in input order. -/
def buildCSR (n : ℕ) (es : List (ℕ × ℕ × ℚ)) : CSRGraph where
  n := n
  offsets := (List.range (n + 1)).map (fun i => (es.filter (fun e => e.1 < i)).length)
  neighbors := (List.range n).flatMap (fun i => (es.filter (fun e => e.1 = i)).map (fun e => e.2.1))
  weights := (List.range n).flatMap (fun i => (es.filter (fun e => e.1 = i)).map (fun e => e.2.2))

/-- Modelled from the spec: undirected graphs are built by expanding each
input edge into both directions before building offsets. -/
def symmetrize (es : List (ℕ × ℕ × ℚ)) : List (ℕ × ℕ × ℚ) :=
  es ++ es.map (fun e => (e.2.1, e.1, e.2.2))

/-- Modelled from the spec: the construction pipeline
raw edges → renumbering → CSR builder.  A renumbering failure aborts the
construction: no graph is produced. -/
def buildFromRaw (src dst : List ℕ) (w : List ℚ) (directed : Bool) :
    Except RenumberError CSRGraph :=
  match renumber src dst with
  | .error e => .error e
  | .ok (s, d, _) =>
      let es := s.zip (d.zip w)
      .ok (buildCSR (numDistinct src dst) (if directed then es else symmetrize es))

/-! ## Shortest-Path Engine (SSSP)

Modelled from the spec (the SSSP engine is not part of the repository
sources; the notebooks only call `cugraph.sssp`): a priority-driven
label-setting (Dijkstra-style) algorithm.  Distances are `Option ℚ`, with
`none` playing the role of `+infinity`.  The frontier is realised by
scanning, at each step, the unsettled vertices with finite tentative
distance and extracting one of minimum distance; ties are broken towards
the vertex of smallest index, and a predecessor is overwritten only on a
strict improvement (first-discovered wins), the spec's documented
deterministic tie-break choice. -/

/-- `+infinity`-aware addition of an edge weight to a tentative distance. -/
def oadd : Option ℚ → ℚ → Option ℚ
  | none, _ => none
  | some a, w => some (a + w)

/-- `+infinity`-aware strict comparison of tentative distances. -/
def olt : Option ℚ → Option ℚ → Bool
  | none, _ => false
  | some _, none => true
  | some a, some b => a < b

/-- The out-edges of vertex `u`: the CSR slice
`offsets[u] .. offsets[u+1]` of the parallel neighbor/weight sequences. -/
def outEdges (g : CSRGraph) (u : ℕ) : List (ℕ × ℚ) :=
  ((g.neighbors.zip g.weights).drop (g.offsets.getD u 0)).take
    (g.offsets.getD (u + 1) 0 - g.offsets.getD u 0)

/-- State of the SSSP engine: tentative distances, predecessors, and the
settled vertices in settlement order. -/
structure SsspState where
  dist : ℕ → Option ℚ
  pred : ℕ → Option ℕ
  order : List ℕ

/-- Modelled from the spec: `distance[source] = 0`, all others `+infinity`,
no predecessors, nothing settled. -/
def initState (source : ℕ) : SsspState where
  dist := fun v => if v = source then some 0 else none
  pred := fun _ => none
  order := []

/-- The unsettled vertices with finite tentative distance (the frontier),
in increasing index order. -/
def unsettledF (n : ℕ) (s : SsspState) : List ℕ :=
  (List.range n).filter (fun v => !(s.order.contains v) && (s.dist v).isSome)

/-- Extract a vertex of minimum tentative distance from the candidate list;
on ties the earlier (smaller-index) candidate is kept. -/
def pickMin (dist : ℕ → Option ℚ) : List ℕ → Option ℕ
  | [] => none
  | v :: vs => some (vs.foldl (fun a b => if olt (dist b) (dist a) then b else a) v)

/-- Relax a single out-edge `e` of the settled vertex `u` whose settled
distance is `du`: on a strict improvement, update the target's distance and
predecessor. -/
def relaxEdge (u : ℕ) (du : Option ℚ) (s : SsspState) (e : ℕ × ℚ) : SsspState :=
  if olt (oadd du e.2) (s.dist e.1) then
    { dist := fun x => if x = e.1 then oadd du e.2 else s.dist x
      pred := fun x => if x = e.1 then some u else s.pred x
      order := s.order }
  else s

/-- Relax every outgoing edge of `u`. -/
def relaxAll (g : CSRGraph) (u : ℕ) (s : SsspState) : SsspState :=
  (outEdges g u).foldl (relaxEdge u (s.dist u)) s

/-- Mark `u` settled (appended to the settlement order). -/
def settleVertex (u : ℕ) (s : SsspState) : SsspState :=
  { s with order := s.order ++ [u] }

/-- The main loop: repeatedly extract an unsettled vertex of minimum
tentative distance, settle it, and relax its out-edges.  Each productive
iteration settles one vertex, so `n` iterations suffice. -/
def dijkstraLoop (g : CSRGraph) : ℕ → SsspState → SsspState
  | 0, s => s
  | fuel + 1, s =>
    match pickMin s.dist (unsettledF g.n s) with
    | none => s
    | some u => dijkstraLoop g fuel (relaxAll g u (settleVertex u s))

/-- The SSSP result: two parallel sequences indexed by vertex — distances
(`none` meaning `+infinity`) and predecessors (`none` meaning no
predecessor). -/
structure DistanceArray where
  distance : List (Option ℚ)
  predecessor : List (Option ℕ)
deriving DecidableEq

/-- The final state of the SSSP loop for a graph and source. -/
def loopState (g : CSRGraph) (source : ℕ) : SsspState :=
  dijkstraLoop g g.n (initState source)

/-- Modelled from the spec: the SSSP engine.  Fails with `InvalidSource` if
`source ≥ n`, fails fast with `NegativeWeight` when a negative edge weight
is present, and otherwise runs the label-setting loop from `source`. -/
def sssp (g : CSRGraph) (source : ℕ) : Except SSSPError DistanceArray :=
  if g.n ≤ source then .error .InvalidSource
  else if g.weights.any (fun w => w < 0) then .error .NegativeWeight
  else
    .ok { distance := (List.range g.n).map (loopState g source).dist
          predecessor := (List.range g.n).map (loopState g source).pred }

/-! ## Path Reconstruction -/

/-- Modelled from the spec: walk `predecessor` links backward from the
target until a vertex with no predecessor is reached, accumulating the
vertices from source to target inclusive; the fuel bounds the walk by `n`
steps. -/
def walkPred (pred : ℕ → Option ℕ) : ℕ → ℕ → List ℕ
  | 0, t => [t]
  | fuel + 1, t =>
    match pred t with
    | none => [t]
    | some u => walkPred pred fuel u ++ [t]

/-- Distance of a vertex in a `DistanceArray`. -/
def distOf (da : DistanceArray) (v : ℕ) : Option ℚ :=
  da.distance.getD v none

/-- Predecessor of a vertex in a `DistanceArray`. -/
def predOf (da : DistanceArray) (v : ℕ) : Option ℕ :=
  da.predecessor.getD v none

/-- The path-reconstruction utility applied to an SSSP result. -/
def reconstructPath (da : DistanceArray) (t : ℕ) : List ℕ :=
  walkPred (predOf da) da.distance.length t

/-- `isEdgePath g p ws` states that consecutive vertices of `p` are joined
by edges of `g` carrying the weights `ws`. -/
def isEdgePath (g : CSRGraph) : List ℕ → List ℚ → Prop
  | [_], [] => True
  | a :: b :: rest, w :: ws => (b, w) ∈ outEdges g a ∧ isEdgePath g (b :: rest) ws
  | _, _ => False

/-! ## The notebook's path-reconstruction loop

Embedded from `notebooks/traversal/SSSP.ipynb` (the printing cell): the
backward walk stores each visited vertex at the array index equal to its
integer distance, in an array of length `int(distance[target]) + 1`. -/

/-- Python's `int(...)` applied to a (finite) distance: integer division of
numerator by denominator, truncating toward zero. -/
def intOf : Option ℚ → ℕ
  | none => 0
  | some q => (q.num / (q.den : ℤ)).toNat

/-- Embedded from the notebook source: the `while d > 0` walk.  Each
iteration moves to the predecessor, recomputes `d` as its integer distance
and stores the vertex at slot `d`.  The dataframe holds a sentinel for the
source's predecessor, so the walk relies on the guard `d > 0`; a missing
predecessor with `d > 0` (impossible for SSSP output) stops the walk. -/
def nbLoop (dist : ℕ → Option ℚ) (pred : ℕ → Option ℕ) :
    ℕ → ℕ → ℕ → List (Option ℕ) → List (Option ℕ)
  | 0, _, _, path => path
  | fuel + 1, v, d, path =>
    if 0 < d then
      match pred v with
      | none => path
      | some v' =>
          nbLoop dist pred fuel v' (intOf (dist v'))
            (path.set (intOf (dist v')) (some v'))
    else path

/-- Embedded from the notebook source: allocate `[None] * (d + 1)`, store
the target at slot `d`, and run the backward walk with the given fuel. -/
def nbWalk (dist : ℕ → Option ℚ) (pred : ℕ → Option ℕ) (fuel t : ℕ) : List (Option ℕ) :=
  nbLoop dist pred fuel t (intOf (dist t))
    ((List.replicate (intOf (dist t) + 1) none).set (intOf (dist t)) (some t))

/-- The notebook walk with fuel `int(distance[target])`, the number of
predecessor steps the loop makes on SSSP output under unit weights. -/
def nbPath (dist : ℕ → Option ℚ) (pred : ℕ → Option ℕ) (t : ℕ) : List (Option ℕ) :=
  nbWalk dist pred (intOf (dist t)) t

/-- The notebook walk applied to an SSSP result. -/
def nbPathDA (da : DistanceArray) (t : ℕ) : List (Option ℕ) :=
  nbPath (distOf da) (predOf da) t

/-! ## Concrete scenario data -/

/-- Modelled from the spec: the 78 undirected edges of the classic
34-member club-membership (Zachary karate club) dataset, with the original
one-based member identifiers, as loaded by the SSSP notebook. -/
def karatePairs : List (ℕ × ℕ) :=
  [(1,2),(1,3),(1,4),(1,5),(1,6),(1,7),(1,8),(1,9),(1,11),(1,12),(1,13),(1,14),
   (1,18),(1,20),(1,22),(1,32),
   (2,3),(2,4),(2,8),(2,14),(2,18),(2,20),(2,22),(2,31),
   (3,4),(3,8),(3,9),(3,10),(3,14),(3,28),(3,29),(3,33),
   (4,8),(4,13),(4,14),
   (5,7),(5,11),
   (6,7),(6,11),(6,17),
   (7,17),
   (9,31),(9,33),(9,34),
   (10,34),
   (14,34),
   (15,33),(15,34),
   (16,33),(16,34),
   (19,33),(19,34),
   (20,34),
   (21,33),(21,34),
   (23,33),(23,34),
   (24,26),(24,28),(24,30),(24,33),(24,34),
   (25,26),(25,28),(25,32),
   (26,32),
   (27,30),(27,34),
   (28,34),
   (29,32),(29,34),
   (30,33),(30,34),
   (31,33),(31,34),
   (32,33),(32,34),
   (33,34)]

/-- Embedded from the notebook source: the source column shifted to
zero-based identifiers (`gdf["src_0"] = gdf["src"] - 1`). -/
def karateSrc : List ℕ := karatePairs.map (fun p => p.1 - 1)

/-- Embedded from the notebook source: the destination column shifted to
zero-based identifiers (`gdf["dst_0"] = gdf["dst"] - 1`). -/
def karateDst : List ℕ := karatePairs.map (fun p => p.2 - 1)

/-- Embedded from the notebook source: the constant unit weight column
(`gdf["data"] = 1.0`). -/
def karateW : List ℚ := List.replicate karatePairs.length 1

/-- The (undirected) club-membership graph built through the pipeline, as
by `cugraph.Graph.from_cudf_edgelist`. -/
def karateG : CSRGraph :=
  match buildFromRaw karateSrc karateDst karateW false with
  | .ok g => g
  | .error _ => ⟨0, [], [], []⟩

/-- The SSSP result from source vertex index `1` on the club-membership
graph (`cugraph.sssp(G, 1)`). -/
def karateDA : DistanceArray :=
  match sssp karateG 1 with
  | .ok da => da
  | .error _ => ⟨[], []⟩

/-- A three-vertex line graph `0 → 1 → 2` with unit weights (witness input
for the SSSP theorems). -/
def lineG : CSRGraph := buildCSR 3 [(0, 1, 1), (1, 2, 1)]

/-- The SSSP result from source `0` on the line graph. -/
def lineDA : DistanceArray :=
  match sssp lineG 0 with
  | .ok da => da
  | .error _ => ⟨[], []⟩

/-- Tentative distances viewed in `WithTop ℚ` (`none` is `+infinity`),
used to reason about the order structure of distances. -/
def toW : Option ℚ → WithTop ℚ
  | none => ⊤
  | some a => (a : WithTop ℚ)

/-- The label-setting invariant maintained by the SSSP loop (for a graph
with non-negative weights whose neighbor indices are below `n` and a valid
source): the source is pinned at distance `0`; distances are non-negative;
the settled list is duplicate-free, within range, with finite distances;
finite distances only occur below `n`; settled distances are below every
unsettled distance; settled vertices are fully relaxed; each predecessor
edge records an exact distance equation; predecessor links point to
earlier-settled vertices; and the source has no predecessor while every
other finite vertex has one. -/
structure Inv (g : CSRGraph) (source : ℕ) (s : SsspState) : Prop where
  dist_source : s.dist source = some 0
  nonneg : ∀ v, 0 ≤ toW (s.dist v)
  nodup : s.order.Nodup
  order_lt : ∀ v ∈ s.order, v < g.n
  order_fin : ∀ v ∈ s.order, s.dist v ≠ none
  fin_lt : ∀ v, s.dist v ≠ none → v < g.n
  settled_le : ∀ a ∈ s.order, ∀ b, b ∉ s.order → toW (s.dist a) ≤ toW (s.dist b)
  relaxed : ∀ a ∈ s.order, ∀ e ∈ outEdges g a,
    toW (s.dist e.1) ≤ toW (s.dist a) + (e.2 : WithTop ℚ)
  tree : ∀ v u, s.pred v = some u →
    ∃ w, (v, w) ∈ outEdges g u ∧ s.dist v = oadd (s.dist u) w
  anc : ∀ v u, s.pred v = some u →
    u ∈ s.order ∧ (v ∈ s.order → s.order.indexOf u < s.order.indexOf v)
  pred_source : s.pred source = none
  pred_fin : ∀ v, v ≠ source → s.dist v ≠ none → s.pred v ≠ none

/-- The invariant holding while the out-edges of the freshly settled vertex
`u` (with settled distance `du`) are being relaxed: the fields of `Inv`
with the relaxation of `u`'s own edges still in progress, plus `u`'s
settled distance and the fact that every settled distance is at most
`du`. -/
structure MidInv (g : CSRGraph) (source : ℕ) (u : ℕ) (du : Option ℚ) (s : SsspState) : Prop where
  hdu : s.dist u = du
  hu_mem : u ∈ s.order
  dist_source : s.dist source = some 0
  nonneg : ∀ v, 0 ≤ toW (s.dist v)
  nodup : s.order.Nodup
  order_lt : ∀ v ∈ s.order, v < g.n
  order_fin : ∀ v ∈ s.order, s.dist v ≠ none
  fin_lt : ∀ v, s.dist v ≠ none → v < g.n
  settled_du : ∀ a ∈ s.order, toW (s.dist a) ≤ toW du
  settled_le : ∀ a ∈ s.order, ∀ b, b ∉ s.order → toW (s.dist a) ≤ toW (s.dist b)
  relaxed_old : ∀ a ∈ s.order, a ≠ u → ∀ e ∈ outEdges g a,
    toW (s.dist e.1) ≤ toW (s.dist a) + (e.2 : WithTop ℚ)
  tree : ∀ v u', s.pred v = some u' →
    ∃ w, (v, w) ∈ outEdges g u' ∧ s.dist v = oadd (s.dist u') w
  anc : ∀ v u', s.pred v = some u' →
    u' ∈ s.order ∧ (v ∈ s.order → s.order.indexOf u' < s.order.indexOf v)
  pred_source : s.pred source = none
  pred_fin : ∀ v, v ≠ source → s.dist v ≠ none → s.pred v ≠ none

/-- The structural invariant of a built `CSRGraph` stated by the spec:
`offsets[0] = 0`, `offsets` non-decreasing with `n + 1` entries,
`offsets[n] = len(neighbors) = len(weights)`, and every neighbor index is
below `n`. -/
def csrWellFormed (g : CSRGraph) : Prop :=
  g.offsets.getD 0 0 = 0 ∧
  List.Sorted (· ≤ ·) g.offsets ∧
  g.offsets.length = g.n + 1 ∧
  g.offsets.getD g.n 0 = g.neighbors.length ∧
  g.neighbors.length = g.weights.length ∧
  ∀ v ∈ g.neighbors, v < g.n

/-- A batch of 50 distinct identifiers spread over an address-like range of
about 3.76 billion values (witness input for the renumbering scenario). -/
def cyberSrc : List ℕ := (List.range 50).map (fun i => 75161927 * i + 3)

/-- Destination column for the renumbering scenario witness: the same 50
identifiers in reverse order. -/
def cyberDst : List ℕ := cyberSrc.reverse

/-- A small two-vertex graph built through the full pipeline (witness input
for the CSR structural invariant). -/
def demoG : CSRGraph :=
  match buildFromRaw [7, 3] [3, 7] [1, 2] true with
  | .ok g => g
  | .error _ => ⟨0, [], [], []⟩

/-! ## Properties of the renumbering engine -/

theorem idList_nodup (src dst : List ℕ) : (idList src dst).Nodup :=
  ((src ++ dst).nodup_dedup).perm (List.perm_insertionSort _ _).symm

theorem mem_idList {src dst : List ℕ} {id : ℕ} :
    id ∈ idList src dst ↔ id ∈ src ++ dst := by
  rw [idList, (List.perm_insertionSort _ _).mem_iff, List.mem_dedup]

theorem toDense_lt {src dst : List ℕ} {id : ℕ} (h : id ∈ src ++ dst) :
    toDense src dst id < numDistinct src dst :=
  List.indexOf_lt_length.2 (mem_idList.2 h)

theorem toDense_toOriginal {src dst : List ℕ} {i : ℕ} (h : i < numDistinct src dst) :
    toDense src dst (toOriginal src dst i) = i := by
  have hg : toOriginal src dst i = (idList src dst)[i] := List.getD_eq_getElem _ _ h
  rw [toDense, hg]
  exact List.indexOf_getElem (idList_nodup src dst) i h

theorem toOriginal_toDense {src dst : List ℕ} {id : ℕ} (h : id ∈ src ++ dst) :
    toOriginal src dst (toDense src dst id) = id := by
  have hlt : (idList src dst).indexOf id < (idList src dst).length :=
    List.indexOf_lt_length.2 (mem_idList.2 h)
  rw [toOriginal, toDense, List.getD_eq_getElem _ _ hlt]
  exact List.getElem_indexOf hlt

/-- C2: the identifier mapping produced by renumbering is a bijection between
the observed identifiers and the dense indices `0..n`: `toDense` after
`toOriginal` is the identity on dense indices, `toOriginal` after `toDense`
is the identity on observed identifiers, and within one renumbering run equal
identifiers (in either column) are always mapped to equal dense indices in
the output sequences. -/
theorem renumber_mapping_bijection (src dst : List ℕ) :
    (∀ i, i < numDistinct src dst → toDense src dst (toOriginal src dst i) = i) ∧
    (∀ id, id ∈ src ++ dst → toOriginal src dst (toDense src dst id) = id) ∧
    (∀ rs rd mp, renumber src dst = .ok (rs, rd, mp) →
      ∀ i j, i < src.length → j < dst.length → src.getD i 0 = dst.getD j 0 →
        rs.getD i 0 = rd.getD j 0) := by
  refine ⟨fun i hi => toDense_toOriginal hi, fun id hid => toOriginal_toDense hid, ?_⟩
  intro rs rd mp hok i j hi hj hij
  rw [renumber] at hok
  by_cases hov : 2 ^ 32 - 1 < numDistinct src dst
  · rw [if_pos hov] at hok
    exact absurd hok (by simp)
  · rw [if_neg hov] at hok
    have hrs : rs = src.map (toDense src dst) := by
      injection hok with h
      exact (congrArg Prod.fst h).symm
    have hrd : rd = dst.map (toDense src dst) := by
      injection hok with h
      have := congrArg Prod.snd h
      exact (congrArg Prod.fst this).symm
    subst hrs hrd
    rw [List.getD_eq_getElem _ _ (by simpa using hi), List.getD_eq_getElem _ _ (by simpa using hj),
      List.getElem_map, List.getElem_map]
    rw [List.getD_eq_getElem _ _ hi, List.getD_eq_getElem _ _ hj] at hij
    rw [hij]

/-- Witness for C2 at a concrete input: identifiers `[5, 3]`/`[5, 9]` are
densely renumbered with `toOriginal`/`toDense` mutually inverse, and the two
occurrences of identifier `5` receive the same dense index. -/
theorem renumber_mapping_bijection_witness :
    toDense [5, 3] [5, 9] (toOriginal [5, 3] [5, 9] 1) = 1 ∧
    toOriginal [5, 3] [5, 9] (toDense [5, 3] [5, 9] 9) = 9 ∧
    [1, 0].getD 0 0 = [1, 2].getD 0 0 := by
  refine ⟨(renumber_mapping_bijection [5, 3] [5, 9]).1 1 (by decide),
    (renumber_mapping_bijection [5, 3] [5, 9]).2.1 9 (by decide),
    (renumber_mapping_bijection [5, 3] [5, 9]).2.2 [1, 0] [1, 2] [3, 5, 9] (by rfl)
      0 0 (by decide) (by decide) (by decide)⟩

/-- C4: when the distinct-identifier count fits the dense index space,
renumbering succeeds and assigns exactly the dense indices `0..n-1`, with no
gaps and no repeats, where `n` counts the distinct identifiers across both
columns: the observed identifiers are mapped, in order, onto `List.range n`,
every output index is below `n`, and every index below `n` is assigned to
some observed identifier. -/
theorem renumber_dense_range (src dst : List ℕ)
    (hn : numDistinct src dst ≤ 2 ^ 32 - 1) :
    ∃ rs rd mp, renumber src dst = .ok (rs, rd, mp) ∧
      (idList src dst).map (toDense src dst) = List.range (numDistinct src dst) ∧
      (∀ x ∈ rs, x < numDistinct src dst) ∧
      (∀ x ∈ rd, x < numDistinct src dst) ∧
      (∀ j, j < numDistinct src dst → ∃ id ∈ src ++ dst, toDense src dst id = j) := by
  refine ⟨src.map (toDense src dst), dst.map (toDense src dst), idList src dst,
    by rw [renumber, if_neg (not_lt.2 hn)], ?_, ?_, ?_, ?_⟩
  · apply List.ext_getElem
    · simp [numDistinct]
    · intro i h1 h2
      rw [List.getElem_map, List.getElem_range]
      exact List.indexOf_getElem (idList_nodup src dst) i (by simpa [numDistinct] using h1)
  · intro x hx
    obtain ⟨id, hid, rfl⟩ := List.mem_map.1 hx
    exact toDense_lt (List.mem_append_left _ hid)
  · intro x hx
    obtain ⟨id, hid, rfl⟩ := List.mem_map.1 hx
    exact toDense_lt (List.mem_append_right _ hid)
  · intro j hj
    refine ⟨(idList src dst)[j], mem_idList.1 (List.getElem_mem _), ?_⟩
    exact List.indexOf_getElem (idList_nodup src dst) j hj

set_option maxRecDepth 100000 in
/-- Witness for C4: a batch of edge pairs over an address-like identifier
space with exactly 50 distinct identifiers renumbers successfully onto the
dense range `0..49`. -/
theorem renumber_dense_range_witness :
    numDistinct cyberSrc cyberDst = 50 ∧
    (∃ rs rd mp, renumber cyberSrc cyberDst = .ok (rs, rd, mp) ∧
      (idList cyberSrc cyberDst).map (toDense cyberSrc cyberDst) =
        List.range (numDistinct cyberSrc cyberDst) ∧
      (∀ x ∈ rs, x < numDistinct cyberSrc cyberDst) ∧
      (∀ x ∈ rd, x < numDistinct cyberSrc cyberDst) ∧
      (∀ j, j < numDistinct cyberSrc cyberDst →
        ∃ id ∈ cyberSrc ++ cyberDst, toDense cyberSrc cyberDst id = j)) :=
  ⟨by decide, renumber_dense_range cyberSrc cyberDst (by decide)⟩

/-- C5: when the number of distinct identifiers exceeds the maximum
representable dense index `2 ^ 32 - 1`, renumbering fails with
`IdentifierOverflow` (no silent truncation), and the whole graph construction
pipeline aborts with that error, so no graph is produced. -/
theorem renumber_overflow (src dst : List ℕ) (w : List ℚ) (directed : Bool)
    (h : 2 ^ 32 - 1 < numDistinct src dst) :
    renumber src dst = .error .IdentifierOverflow ∧
    buildFromRaw src dst w directed = .error .IdentifierOverflow := by
  have h1 : renumber src dst = .error .IdentifierOverflow := by
    rw [renumber, if_pos h]
  exact ⟨h1, by rw [buildFromRaw, h1]⟩

/-- Witness for C5: an input with `2 ^ 32` distinct identifiers makes both
the renumbering engine and the construction pipeline fail with
`IdentifierOverflow`. -/
theorem renumber_overflow_witness :
    renumber (List.range (2 ^ 32)) [] = .error .IdentifierOverflow ∧
    buildFromRaw (List.range (2 ^ 32)) [] [] true = .error .IdentifierOverflow := by
  have hlen : numDistinct (List.range (2 ^ 32)) [] = 2 ^ 32 := by
    rw [numDistinct, idList, List.append_nil, List.Nodup.dedup (List.nodup_range _),
      (List.perm_insertionSort _ _).length_eq, List.length_range]
  exact renumber_overflow _ _ _ _ (by rw [hlen]; decide)

/-! ## Properties of the CSR builder -/

theorem filter_lt_zero (es : List (ℕ × ℕ × ℚ)) :
    (es.filter (fun e => e.1 < 0)).length = 0 := by
  simp

theorem filter_lt_succ (es : List (ℕ × ℕ × ℚ)) (i : ℕ) :
    (es.filter (fun e => e.1 < i + 1)).length =
      (es.filter (fun e => e.1 < i)).length + (es.filter (fun e => e.1 = i)).length := by
  induction es with
  | nil => simp
  | cons e es ih =>
    by_cases h1 : e.1 < i + 1
    · by_cases h2 : e.1 < i
      · have h3 : ¬ e.1 = i := by omega
        rw [List.filter_cons_of_pos (by simpa using h1),
          List.filter_cons_of_pos (by simpa using h2),
          List.filter_cons_of_neg (by simpa using h3), List.length_cons, List.length_cons, ih]
        omega
      · have h3 : e.1 = i := by omega
        rw [List.filter_cons_of_pos (by simpa using h1),
          List.filter_cons_of_neg (by simpa using h2),
          List.filter_cons_of_pos (by simpa using h3), List.length_cons, List.length_cons, ih]
        omega
    · have h2 : ¬ e.1 < i := by omega
      have h3 : ¬ e.1 = i := by omega
      rw [List.filter_cons_of_neg (by simpa using h1),
        List.filter_cons_of_neg (by simpa using h2),
        List.filter_cons_of_neg (by simpa using h3), ih]

theorem filter_lt_mono (es : List (ℕ × ℕ × ℚ)) {a b : ℕ} (h : a ≤ b) :
    (es.filter (fun e => e.1 < a)).length ≤ (es.filter (fun e => e.1 < b)).length := by
  induction es with
  | nil => simp
  | cons e es ih =>
    by_cases h1 : e.1 < a
    · have h2 : e.1 < b := lt_of_lt_of_le h1 h
      rw [List.filter_cons_of_pos (by simpa using h1),
        List.filter_cons_of_pos (by simpa using h2), List.length_cons, List.length_cons]
      omega
    · by_cases h2 : e.1 < b
      · rw [List.filter_cons_of_neg (by simpa using h1),
          List.filter_cons_of_pos (by simpa using h2), List.length_cons]
        omega
      · rw [List.filter_cons_of_neg (by simpa using h1),
          List.filter_cons_of_neg (by simpa using h2)]
        exact ih

theorem flatMap_filter_length {β : Type} (es : List (ℕ × ℕ × ℚ)) (f : ℕ × ℕ × ℚ → β) :
    ∀ k, ((List.range k).flatMap
        (fun i => (es.filter (fun e => e.1 = i)).map f)).length =
      (es.filter (fun e => e.1 < k)).length := by
  intro k
  induction k with
  | zero => simp
  | succ k ih =>
    rw [List.range_succ, List.flatMap_append, List.length_append, ih, filter_lt_succ]
    simp

theorem buildCSR_n (n : ℕ) (es : List (ℕ × ℕ × ℚ)) : (buildCSR n es).n = n := rfl

theorem buildCSR_offsets (n : ℕ) (es : List (ℕ × ℕ × ℚ)) :
    (buildCSR n es).offsets =
      (List.range (n + 1)).map (fun i => (es.filter (fun e => e.1 < i)).length) := rfl

theorem buildCSR_neighbors (n : ℕ) (es : List (ℕ × ℕ × ℚ)) :
    (buildCSR n es).neighbors =
      (List.range n).flatMap
        (fun i => (es.filter (fun e => e.1 = i)).map (fun e => e.2.1)) := rfl

theorem buildCSR_weights (n : ℕ) (es : List (ℕ × ℕ × ℚ)) :
    (buildCSR n es).weights =
      (List.range n).flatMap
        (fun i => (es.filter (fun e => e.1 = i)).map (fun e => e.2.2)) := rfl

theorem buildCSR_wellFormed (n : ℕ) (es : List (ℕ × ℕ × ℚ))
    (hd : ∀ e ∈ es, e.2.1 < n) : csrWellFormed (buildCSR n es) := by
  have hoff : ∀ i, i < n + 1 →
      (buildCSR n es).offsets.getD i 0 = (es.filter (fun e => e.1 < i)).length := by
    intro i hi
    rw [buildCSR_offsets, List.getD_eq_getElem _ _ (by simpa using hi), List.getElem_map,
      List.getElem_range]
  refine ⟨?_, ?_, ?_, ?_, ?_, ?_⟩
  · rw [hoff 0 (by omega)]
    simp
  · rw [buildCSR_offsets]
    refine List.Pairwise.map _ ?_ (List.pairwise_lt_range (n + 1))
    intro a b hab
    exact filter_lt_mono es (le_of_lt hab)
  · simp [buildCSR_offsets, buildCSR_n]
  · rw [buildCSR_n, hoff n (by omega), buildCSR_neighbors, flatMap_filter_length]
  · rw [buildCSR_neighbors, buildCSR_weights]
    simp only [flatMap_filter_length]
  · intro v hv
    rw [buildCSR_neighbors] at hv
    simp only [List.mem_flatMap, List.mem_map, List.mem_filter, List.mem_range] at hv
    obtain ⟨i, _, e, ⟨he, _⟩, rfl⟩ := hv
    rw [buildCSR_n]
    exact hd e he

theorem symmetrize_dest_lt {n : ℕ} {es : List (ℕ × ℕ × ℚ)}
    (h1 : ∀ e ∈ es, e.1 < n) (h2 : ∀ e ∈ es, e.2.1 < n) :
    ∀ e ∈ symmetrize es, e.2.1 < n := by
  intro e he
  rcases List.mem_append.1 he with h | h
  · exact h2 e h
  · obtain ⟨e', he', rfl⟩ := List.mem_map.1 h
    exact h1 e' he'

/-- C7: every `CSRGraph` built by the construction pipeline satisfies the
structural invariant: `offsets[0] = 0`, `offsets` is non-decreasing,
`offsets[n]` equals the length of `neighbors` which equals the length of
`weights`, and every neighbor index is strictly below `n`. -/
theorem built_graph_wellFormed (src dst : List ℕ) (w : List ℚ) (directed : Bool)
    (g : CSRGraph) (hok : buildFromRaw src dst w directed = .ok g) :
    csrWellFormed g := by
  rw [buildFromRaw] at hok
  rcases hre : renumber src dst with e | t
  · rw [hre] at hok
    exact absurd hok (by simp)
  · obtain ⟨rs, rd, mp⟩ := t
    rw [hre] at hok
    simp only [Except.ok.injEq] at hok
    have hsrc : ∀ x ∈ rs, x < numDistinct src dst := by
      rw [renumber] at hre
      by_cases hov : 2 ^ 32 - 1 < numDistinct src dst
      · rw [if_pos hov] at hre
        exact absurd hre (by simp)
      · rw [if_neg hov] at hre
        simp only [Except.ok.injEq, Prod.mk.injEq] at hre
        intro x hx
        rw [← hre.1] at hx
        obtain ⟨id, hid, rfl⟩ := List.mem_map.1 hx
        exact toDense_lt (List.mem_append_left _ hid)
    have hdst : ∀ x ∈ rd, x < numDistinct src dst := by
      rw [renumber] at hre
      by_cases hov : 2 ^ 32 - 1 < numDistinct src dst
      · rw [if_pos hov] at hre
        exact absurd hre (by simp)
      · rw [if_neg hov] at hre
        simp only [Except.ok.injEq, Prod.mk.injEq] at hre
        intro x hx
        rw [← hre.2.1] at hx
        obtain ⟨id, hid, rfl⟩ := List.mem_map.1 hx
        exact toDense_lt (List.mem_append_right _ hid)
    have hz1 : ∀ e ∈ rs.zip (rd.zip w), e.1 < numDistinct src dst := by
      intro e he
      exact hsrc e.1 (List.of_mem_zip he).1
    have hz2 : ∀ e ∈ rs.zip (rd.zip w), e.2.1 < numDistinct src dst := by
      intro e he
      exact hdst e.2.1 (List.of_mem_zip (List.of_mem_zip he).2).1
    rw [← hok]
    cases directed with
    | true => exact buildCSR_wellFormed _ _ (by simpa using hz2)
    | false => exact buildCSR_wellFormed _ _ (by simpa using symmetrize_dest_lt hz1 hz2)

/-- Witness for C7: the two-vertex demonstration graph built through the
pipeline satisfies the CSR structural invariant. -/
theorem built_graph_wellFormed_witness : csrWellFormed demoG :=
  built_graph_wellFormed [7, 3] [3, 7] [1, 2] true demoG (by rfl)

/-! ## SSSP scenario on the club-membership graph -/

set_option maxRecDepth 100000 in
attribute [local semireducible] Rat.add in
/-- C3 counterexample: on the 34-vertex club-membership graph with source
vertex index `1`, the SSSP distance of vertex `33` is *not* `3`: the
notebook's own printed path `[1, 13, 33]` has two unit-weight edges, so the
distance is `2`. -/
theorem karate_distance33_not_three :
    sssp karateG 1 = .ok karateDA ∧ ¬ distOf karateDA 33 = some 3 :=
  ⟨rfl, by decide⟩

set_option maxRecDepth 100000 in
attribute [local semireducible] Rat.add in
/-- C3 amended: on the 34-vertex undirected unit-weight club-membership
graph with zero-based identifiers and source vertex index `1`, SSSP yields
`distance[0] = 1` and `distance[33] = 2`, and path reconstruction to vertex
`33` returns exactly `[1, 13, 33]`. -/
theorem karate_scenario :
    sssp karateG 1 = .ok karateDA ∧
    distOf karateDA 0 = some 1 ∧
    distOf karateDA 33 = some 2 ∧
    reconstructPath karateDA 33 = [1, 13, 33] :=
  ⟨rfl, by decide, by decide, by decide⟩

/-! ## SSSP error handling and determinism -/

/-- C8: SSSP on a graph with `n` vertices and a source index `≥ n` fails
with `InvalidSource`.  The graph itself is a value the query never
modifies: the error is scoped to the query. -/
theorem sssp_invalid_source (g : CSRGraph) (source : ℕ) (h : g.n ≤ source) :
    sssp g source = .error .InvalidSource := by
  rw [sssp, if_pos h]

/-- Witness for C8: querying the three-vertex line graph with source `3`
fails with `InvalidSource`. -/
theorem sssp_invalid_source_witness :
    sssp lineG 3 = .error .InvalidSource :=
  sssp_invalid_source lineG 3 (by decide)

/-- C9: SSSP is deterministic: two runs on the same graph and source yield
identical distances and identical predecessors for every vertex. -/
theorem sssp_deterministic (g : CSRGraph) (source : ℕ) (da1 da2 : DistanceArray)
    (h1 : sssp g source = .ok da1) (h2 : sssp g source = .ok da2) :
    da1.distance = da2.distance ∧ da1.predecessor = da2.predecessor := by
  rw [h1] at h2
  injection h2 with h
  rw [h]
  exact ⟨rfl, rfl⟩

attribute [local semireducible] Rat.add in
/-- Witness for C9: two SSSP runs on the line graph agree. -/
theorem sssp_deterministic_witness :
    lineDA.distance = lineDA.distance ∧ lineDA.predecessor = lineDA.predecessor :=
  sssp_deterministic lineG 0 lineDA lineDA rfl rfl

/-! ## Order structure of tentative distances -/

theorem toW_none : toW none = ⊤ := rfl

theorem toW_some (a : ℚ) : toW (some a) = (a : WithTop ℚ) := rfl

theorem toW_eq_top {a : Option ℚ} : toW a = ⊤ ↔ a = none := by
  cases a <;> simp [toW]

theorem olt_iff {a b : Option ℚ} : olt a b = true ↔ toW a < toW b := by
  cases a <;> cases b <;>
    simp [olt, toW, WithTop.coe_lt_top, WithTop.coe_lt_coe, not_top_lt]

theorem olt_false_iff {a b : Option ℚ} : olt a b = false ↔ toW b ≤ toW a := by
  rw [Bool.eq_false_iff, ne_eq, olt_iff, not_lt]

theorem toW_oadd (a : Option ℚ) (w : ℚ) : toW (oadd a w) = toW a + (w : WithTop ℚ) := by
  cases a <;> simp [oadd, toW]

theorem oadd_ne_none {a : Option ℚ} {w : ℚ} (h : a ≠ none) : oadd a w ≠ none := by
  cases a with
  | none => exact absurd rfl h
  | some q => simp [oadd]

theorem outEdges_mem {g : CSRGraph} {u : ℕ} {e : ℕ × ℚ} (h : e ∈ outEdges g u) :
    e.1 ∈ g.neighbors ∧ e.2 ∈ g.weights := by
  have h1 : e ∈ g.neighbors.zip g.weights :=
    List.mem_of_mem_drop (List.mem_of_mem_take h)
  exact ⟨(List.of_mem_zip h1).1, (List.of_mem_zip h1).2⟩

/-! ## Properties of frontier extraction -/

theorem pickMin_foldl_le (dist : ℕ → Option ℚ) (vs : List ℕ) (a : ℕ) :
    toW (dist (vs.foldl (fun a b => if olt (dist b) (dist a) then b else a) a)) ≤
        toW (dist a) ∧
    ∀ v ∈ vs, toW (dist (vs.foldl (fun a b => if olt (dist b) (dist a) then b else a) a)) ≤
        toW (dist v) := by
  induction vs generalizing a with
  | nil => exact ⟨le_refl _, by simp⟩
  | cons b vs ih =>
    rw [List.foldl_cons]
    by_cases h : olt (dist b) (dist a) = true
    · rw [if_pos h]
      refine ⟨le_trans (ih b).1 (le_of_lt (olt_iff.1 h)), ?_⟩
      intro v hv
      rcases List.mem_cons.1 hv with h1 | hv
      · rw [h1]
        exact (ih b).1
      · exact (ih b).2 v hv
    · rw [if_neg h]
      have hba : toW (dist a) ≤ toW (dist b) :=
        olt_false_iff.1 (Bool.eq_false_iff.2 h)
      refine ⟨(ih a).1, ?_⟩
      intro v hv
      rcases List.mem_cons.1 hv with h1 | hv
      · rw [h1]
        exact le_trans (ih a).1 hba
      · exact (ih a).2 v hv

theorem pickMin_foldl_mem (dist : ℕ → Option ℚ) (vs : List ℕ) (a : ℕ) :
    vs.foldl (fun a b => if olt (dist b) (dist a) then b else a) a ∈ a :: vs := by
  induction vs generalizing a with
  | nil => simp
  | cons b vs ih =>
    rw [List.foldl_cons]
    by_cases h : olt (dist b) (dist a) = true
    · rw [if_pos h]
      rcases List.mem_cons.1 (ih b) with h1 | h1
      · rw [h1]
        exact List.mem_cons_of_mem _ (List.mem_cons_self _ _)
      · exact List.mem_cons_of_mem _ (List.mem_cons_of_mem _ h1)
    · rw [if_neg h]
      rcases List.mem_cons.1 (ih a) with h1 | h1
      · rw [h1]
        exact List.mem_cons_self _ _
      · exact List.mem_cons_of_mem _ (List.mem_cons_of_mem _ h1)

theorem pickMin_mem {dist : ℕ → Option ℚ} {l : List ℕ} {u : ℕ}
    (h : pickMin dist l = some u) : u ∈ l := by
  cases l with
  | nil => exact absurd h (by simp [pickMin])
  | cons v vs =>
    rw [pickMin, Option.some.injEq] at h
    exact h ▸ pickMin_foldl_mem dist vs v

theorem pickMin_min {dist : ℕ → Option ℚ} {l : List ℕ} {u : ℕ}
    (h : pickMin dist l = some u) : ∀ v ∈ l, toW (dist u) ≤ toW (dist v) := by
  cases l with
  | nil => exact absurd h (by simp [pickMin])
  | cons v vs =>
    rw [pickMin, Option.some.injEq] at h
    intro x hx
    rcases List.mem_cons.1 hx with rfl | hx
    · exact h ▸ (pickMin_foldl_le dist vs x).1
    · exact h ▸ (pickMin_foldl_le dist vs v).2 x hx

theorem pickMin_none {dist : ℕ → Option ℚ} {l : List ℕ}
    (h : pickMin dist l = none) : l = [] := by
  cases l with
  | nil => rfl
  | cons v vs => exact absurd h (by simp [pickMin])

/-! ## Properties of edge relaxation -/

theorem relaxEdge_cases (u : ℕ) (du : Option ℚ) (s : SsspState) (e : ℕ × ℚ) :
    (olt (oadd du e.2) (s.dist e.1) = false ∧ relaxEdge u du s e = s) ∨
    (olt (oadd du e.2) (s.dist e.1) = true ∧
      (∀ x, (relaxEdge u du s e).dist x = if x = e.1 then oadd du e.2 else s.dist x) ∧
      (∀ x, (relaxEdge u du s e).pred x = if x = e.1 then some u else s.pred x) ∧
      (relaxEdge u du s e).order = s.order) := by
  cases hc : olt (oadd du e.2) (s.dist e.1) with
  | false =>
    left
    have hnc : ¬ olt (oadd du e.2) (s.dist e.1) = true := by rw [hc]; exact Bool.false_ne_true
    exact ⟨rfl, by rw [relaxEdge, if_neg hnc]⟩
  | true =>
    right
    refine ⟨rfl, ?_, ?_, ?_⟩ <;> rw [relaxEdge, if_pos hc] <;> intros <;> rfl

theorem relaxEdge_order (u : ℕ) (du : Option ℚ) (s : SsspState) (e : ℕ × ℚ) :
    (relaxEdge u du s e).order = s.order := by
  rcases relaxEdge_cases u du s e with ⟨_, heq⟩ | ⟨_, _, _, ho⟩
  · rw [heq]
  · exact ho

theorem foldl_relax_order (u : ℕ) (du : Option ℚ) (es : List (ℕ × ℚ)) :
    ∀ s : SsspState, (es.foldl (relaxEdge u du) s).order = s.order := by
  induction es with
  | nil => intro s; rfl
  | cons e es ih =>
    intro s
    rw [List.foldl_cons, ih, relaxEdge_order]

theorem relaxEdge_dist_le (u : ℕ) (du : Option ℚ) (s : SsspState) (e : ℕ × ℚ) (x : ℕ) :
    toW ((relaxEdge u du s e).dist x) ≤ toW (s.dist x) := by
  rcases relaxEdge_cases u du s e with ⟨_, heq⟩ | ⟨hc, hdist, _, _⟩
  · rw [heq]
  · rw [hdist x]
    by_cases hx : x = e.1
    · rw [if_pos hx, hx]
      exact le_of_lt (olt_iff.1 hc)
    · rw [if_neg hx]

theorem foldl_relax_dist_le (u : ℕ) (du : Option ℚ) (es : List (ℕ × ℚ)) :
    ∀ (s : SsspState) (x : ℕ),
      toW ((es.foldl (relaxEdge u du) s).dist x) ≤ toW (s.dist x) := by
  induction es with
  | nil => intro s x; exact le_refl _
  | cons e es ih =>
    intro s x
    rw [List.foldl_cons]
    exact le_trans (ih _ x) (relaxEdge_dist_le u du s e x)

theorem midInv_step {g : CSRGraph} {source u : ℕ} {du : Option ℚ} {s : SsspState} {e : ℕ × ℚ}
    (hw : ∀ w ∈ g.weights, 0 ≤ w) (hwf : ∀ v ∈ g.neighbors, v < g.n)
    (he : e ∈ outEdges g u) (hm : MidInv g source u du s) :
    MidInv g source u du (relaxEdge u du s e) := by
  rcases relaxEdge_cases u du s e with ⟨_, heq⟩ | ⟨hc, hdist, hpred, horder⟩
  · rw [heq]
    exact hm
  · have hw2 : (0 : WithTop ℚ) ≤ (e.2 : WithTop ℚ) := by
      exact_mod_cast hw e.2 (outEdges_mem he).2
    have hlt : toW (oadd du e.2) < toW (s.dist e.1) := olt_iff.1 hc
    have hnn_du : (0 : WithTop ℚ) ≤ toW du := by
      have h0 := hm.nonneg u
      rwa [hm.hdu] at h0
    have hnn_nv : (0 : WithTop ℚ) ≤ toW (oadd du e.2) := by
      rw [toW_oadd]
      exact le_add_of_le_of_nonneg hnn_du hw2
    have hdu_le_nv : toW du ≤ toW (oadd du e.2) := by
      rw [toW_oadd]
      exact le_add_of_nonneg_right hw2
    have hv_not : e.1 ∉ s.order := by
      intro hmem
      exact absurd hlt (not_lt.2 (le_trans (hm.settled_du e.1 hmem) hdu_le_nv))
    have hv_ne_u : e.1 ≠ u := fun h => hv_not (h ▸ hm.hu_mem)
    have hv_ne_source : e.1 ≠ source := by
      intro h
      have h0 : toW (some (0 : ℚ)) = (0 : WithTop ℚ) := by simp [toW_some]
      rw [h, hm.dist_source, h0] at hlt
      exact absurd hlt (not_lt.2 hnn_nv)
    refine ⟨?_, ?_, ?_, ?_, ?_, ?_, ?_, ?_, ?_, ?_, ?_, ?_, ?_, ?_, ?_⟩
    · rw [hdist u, if_neg (Ne.symm hv_ne_u)]
      exact hm.hdu
    · rw [horder]
      exact hm.hu_mem
    · rw [hdist source, if_neg (Ne.symm hv_ne_source)]
      exact hm.dist_source
    · intro v
      rw [hdist v]
      by_cases hx : v = e.1
      · rw [if_pos hx]
        exact hnn_nv
      · rw [if_neg hx]
        exact hm.nonneg v
    · rw [horder]
      exact hm.nodup
    · intro v hv
      rw [horder] at hv
      exact hm.order_lt v hv
    · intro v hv
      rw [horder] at hv
      rw [hdist v, if_neg (fun h : _ = e.1 => hv_not (h ▸ hv))]
      exact hm.order_fin v hv
    · intro v hv
      rw [hdist v] at hv
      by_cases hx : v = e.1
      · rw [hx]
        exact hwf e.1 (outEdges_mem he).1
      · rw [if_neg hx] at hv
        exact hm.fin_lt v hv
    · intro a ha
      rw [horder] at ha
      rw [hdist a, if_neg (fun h : _ = e.1 => hv_not (h ▸ ha))]
      exact hm.settled_du a ha
    · intro a ha b hb
      rw [horder] at ha hb
      rw [hdist a, if_neg (fun h : _ = e.1 => hv_not (h ▸ ha)), hdist b]
      by_cases hxb : b = e.1
      · rw [if_pos hxb]
        exact le_trans (hm.settled_du a ha) hdu_le_nv
      · rw [if_neg hxb]
        exact hm.settled_le a ha b hb
    · intro a ha hane e' he'
      rw [horder] at ha
      rw [hdist a, if_neg (fun h : _ = e.1 => hv_not (h ▸ ha)), hdist e'.1]
      by_cases hx : e'.1 = e.1
      · rw [if_pos hx]
        have h2 := hm.relaxed_old a ha hane e' he'
        rw [hx] at h2
        exact le_trans (le_of_lt hlt) h2
      · rw [if_neg hx]
        exact hm.relaxed_old a ha hane e' he'
    · intro v q hpq
      rw [hpred v] at hpq
      by_cases hx : v = e.1
      · rw [if_pos hx, Option.some.injEq] at hpq
        subst hpq
        refine ⟨e.2, ?_, ?_⟩
        · rw [hx]
          simpa using he
        · rw [hdist v, if_pos hx, hdist u, if_neg (Ne.symm hv_ne_u), hm.hdu]
      · rw [if_neg hx] at hpq
        obtain ⟨w, hmem, heqd⟩ := hm.tree v q hpq
        have hq_mem : q ∈ s.order := (hm.anc v q hpq).1
        refine ⟨w, hmem, ?_⟩
        rw [hdist v, if_neg hx, hdist q, if_neg (fun h : _ = e.1 => hv_not (h ▸ hq_mem))]
        exact heqd
    · intro v q hpq
      rw [hpred v] at hpq
      by_cases hx : v = e.1
      · rw [if_pos hx, Option.some.injEq] at hpq
        subst hpq
        constructor
        · rw [horder]
          exact hm.hu_mem
        · intro hv
          rw [horder] at hv
          exact absurd (hx ▸ hv) hv_not
      · rw [if_neg hx] at hpq
        obtain ⟨h1, h2⟩ := hm.anc v q hpq
        constructor
        · rw [horder]
          exact h1
        · intro hv
          rw [horder] at hv ⊢
          exact h2 hv
    · rw [hpred source, if_neg (Ne.symm hv_ne_source)]
      exact hm.pred_source
    · intro v hvs hvd
      rw [hpred v]
      by_cases hx : v = e.1
      · rw [if_pos hx]
        simp
      · rw [if_neg hx]
        rw [hdist v, if_neg hx] at hvd
        exact hm.pred_fin v hvs hvd

theorem midInv_fold {g : CSRGraph} {source u : ℕ} {du : Option ℚ}
    (hw : ∀ w ∈ g.weights, 0 ≤ w) (hwf : ∀ v ∈ g.neighbors, v < g.n) :
    ∀ es : List (ℕ × ℚ), (∀ e ∈ es, e ∈ outEdges g u) →
      ∀ s : SsspState, MidInv g source u du s →
        MidInv g source u du (es.foldl (relaxEdge u du) s) := by
  intro es
  induction es with
  | nil =>
    intro _ s hm
    exact hm
  | cons e es ih =>
    intro hes s hm
    rw [List.foldl_cons]
    exact ih (fun e' he' => hes e' (List.mem_cons_of_mem _ he')) _
      (midInv_step hw hwf (hes e (List.mem_cons_self _ _)) hm)

theorem fold_relaxed_self {g : CSRGraph} {source u : ℕ} {du : Option ℚ}
    (hw : ∀ w ∈ g.weights, 0 ≤ w) (hwf : ∀ v ∈ g.neighbors, v < g.n) :
    ∀ es : List (ℕ × ℚ), (∀ e ∈ es, e ∈ outEdges g u) →
      ∀ s : SsspState, MidInv g source u du s →
        ∀ e ∈ es, toW ((es.foldl (relaxEdge u du) s).dist e.1) ≤
          toW du + (e.2 : WithTop ℚ) := by
  intro es
  induction es with
  | nil =>
    intro _ s _ e he
    exact absurd he (List.not_mem_nil e)
  | cons e0 es ih =>
    intro hes s hm e he
    rw [List.foldl_cons]
    rcases List.mem_cons.1 he with h1 | h1
    · have hstep : toW ((relaxEdge u du s e0).dist e0.1) ≤ toW du + (e0.2 : WithTop ℚ) := by
        rcases relaxEdge_cases u du s e0 with ⟨hc, heq⟩ | ⟨hc, hdist, _, _⟩
        · rw [heq, ← toW_oadd]
          exact olt_false_iff.1 hc
        · rw [hdist e0.1, if_pos rfl, toW_oadd]
      rw [h1]
      exact le_trans (foldl_relax_dist_le u du es _ e0.1) hstep
    · exact ih (fun e' he' => hes e' (List.mem_cons_of_mem _ he')) _
        (midInv_step hw hwf (hes e0 (List.mem_cons_self _ _)) hm) e h1

theorem unsettledF_mem {n : ℕ} {s : SsspState} {v : ℕ} :
    v ∈ unsettledF n s ↔ v < n ∧ v ∉ s.order ∧ s.dist v ≠ none := by
  rw [unsettledF, List.mem_filter, List.mem_range]
  simp only [Bool.and_eq_true, Bool.not_eq_true', List.contains,
    List.elem_eq_mem, decide_eq_false_iff_not, Option.isSome_iff_ne_none]

/-- Settling the vertex returned by frontier extraction and relaxing all its
out-edges preserves the loop invariant and appends exactly that vertex to
the settlement order. -/
theorem inv_step {g : CSRGraph} {source : ℕ} {s : SsspState} {u : ℕ}
    (hw : ∀ w ∈ g.weights, 0 ≤ w) (hwf : ∀ v ∈ g.neighbors, v < g.n)
    (hinv : Inv g source s) (hpick : pickMin s.dist (unsettledF g.n s) = some u) :
    Inv g source (relaxAll g u (settleVertex u s)) ∧
      (relaxAll g u (settleVertex u s)).order = s.order ++ [u] := by
  obtain ⟨hu_lt, hu_not, hu_fin⟩ := unsettledF_mem.1 (pickMin_mem hpick)
  have hmin : ∀ b, b ∉ s.order → toW (s.dist u) ≤ toW (s.dist b) := by
    intro b hb
    by_cases hfin : s.dist b = none
    · rw [hfin, toW_none]
      exact le_top
    · by_cases hbn : b < g.n
      · exact pickMin_min hpick b (unsettledF_mem.2 ⟨hbn, hb, hfin⟩)
      · exact absurd (hinv.fin_lt b hfin) hbn
  have horder0 : (settleVertex u s).order = s.order ++ [u] := rfl
  have hdist0 : (settleVertex u s).dist = s.dist := rfl
  have hpred0 : (settleVertex u s).pred = s.pred := rfl
  have hmem_new : ∀ a, a ∈ s.order ++ [u] ↔ a ∈ s.order ∨ a = u := by
    intro a
    simp [List.mem_append]
  have hmid : MidInv g source u (s.dist u) (settleVertex u s) := by
    refine ⟨rfl, ?_, hinv.dist_source, hinv.nonneg, ?_, ?_, ?_, hinv.fin_lt, ?_, ?_, ?_,
      hinv.tree, ?_, hinv.pred_source, hinv.pred_fin⟩
    · rw [horder0]
      exact List.mem_append_right _ (List.mem_cons_self _ _)
    · rw [horder0, List.nodup_append]
      exact ⟨hinv.nodup, List.nodup_singleton u,
        fun a ha hb => hu_not ((List.mem_singleton.1 hb) ▸ ha)⟩
    · intro v hv
      rcases (hmem_new v).1 (horder0 ▸ hv) with h | h
      · exact hinv.order_lt v h
      · exact h ▸ hu_lt
    · intro v hv
      rcases (hmem_new v).1 (horder0 ▸ hv) with h | h
      · exact hinv.order_fin v h
      · exact h ▸ hu_fin
    · intro a ha
      rcases (hmem_new a).1 (horder0 ▸ ha) with h | h
      · exact hinv.settled_le a h u hu_not
      · rw [h]
        exact le_refl _
    · intro a ha b hb
      rw [horder0] at ha hb
      have hb' : b ∉ s.order := fun h => hb (List.mem_append_left _ h)
      rcases (hmem_new a).1 ha with h | h
      · exact hinv.settled_le a h b hb'
      · rw [h]
        exact hmin b hb'
    · intro a ha hne e he
      rcases (hmem_new a).1 (horder0 ▸ ha) with h | h
      · exact hinv.relaxed a h e he
      · exact absurd h hne
    · intro v q hpq
      obtain ⟨h1, h2⟩ := hinv.anc v q hpq
      constructor
      · rw [horder0]
        exact List.mem_append_left _ h1
      · intro hv
        rw [horder0] at hv ⊢
        rcases (hmem_new v).1 hv with h | h
        · rw [List.indexOf_append_of_mem h1, List.indexOf_append_of_mem h]
          exact h2 h
        · rw [List.indexOf_append_of_mem h1, h, List.indexOf_append_of_not_mem hu_not]
          have := List.indexOf_lt_length.2 h1
          omega
  have hfold := midInv_fold hw hwf (outEdges g u) (fun e he => he) _ hmid
  have hrelax := fold_relaxed_self hw hwf (outEdges g u) (fun e he => he) _ hmid
  have hra : relaxAll g u (settleVertex u s) =
      (outEdges g u).foldl (relaxEdge u (s.dist u)) (settleVertex u s) := rfl
  have horder1 : (relaxAll g u (settleVertex u s)).order = s.order ++ [u] := by
    rw [hra, foldl_relax_order, horder0]
  rw [hra]
  refine ⟨⟨hfold.dist_source, hfold.nonneg, hfold.nodup, hfold.order_lt, hfold.order_fin,
    hfold.fin_lt, hfold.settled_le, ?_, hfold.tree, hfold.anc, hfold.pred_source,
    hfold.pred_fin⟩, hra ▸ horder1⟩
  intro a ha e he
  by_cases hau : a = u
  · rw [hau, hfold.hdu]
    rw [hau] at he
    exact hrelax e he
  · exact hfold.relaxed_old a ha hau e he

theorem initState_dist (source v : ℕ) :
    (initState source).dist v = if v = source then some 0 else none := rfl

theorem initState_pred (source v : ℕ) : (initState source).pred v = none := rfl

theorem initState_order (source : ℕ) : (initState source).order = [] := rfl

theorem initState_inv (g : CSRGraph) (source : ℕ) (hsrc : source < g.n) :
    Inv g source (initState source) := by
  refine ⟨?_, ?_, ?_, ?_, ?_, ?_, ?_, ?_, ?_, ?_, ?_, ?_⟩
  · rw [initState_dist, if_pos rfl]
  · intro v
    rw [initState_dist]
    by_cases h : v = source
    · rw [if_pos h, toW_some]
      exact_mod_cast le_refl (0 : ℚ)
    · rw [if_neg h, toW_none]
      exact le_top
  · exact List.nodup_nil
  · intro v hv
    exact absurd hv (List.not_mem_nil v)
  · intro v hv
    exact absurd hv (List.not_mem_nil v)
  · intro v hv
    rw [initState_dist] at hv
    by_cases h : v = source
    · rw [h]
      exact hsrc
    · rw [if_neg h] at hv
      exact absurd rfl hv
  · intro a ha
    exact absurd ha (List.not_mem_nil a)
  · intro a ha
    exact absurd ha (List.not_mem_nil a)
  · intro v q h
    rw [initState_pred] at h
    exact absurd h (by simp)
  · intro v q h
    rw [initState_pred] at h
    exact absurd h (by simp)
  · rfl
  · intro v hv hd
    rw [initState_dist, if_neg hv] at hd
    exact absurd rfl hd

theorem inv_loop {g : CSRGraph} {source : ℕ}
    (hw : ∀ w ∈ g.weights, 0 ≤ w) (hwf : ∀ v ∈ g.neighbors, v < g.n) :
    ∀ (fuel : ℕ) (s : SsspState), Inv g source s →
      Inv g source (dijkstraLoop g fuel s) := by
  intro fuel
  induction fuel with
  | zero =>
    intro s h
    exact h
  | succ fuel ih =>
    intro s h
    rw [dijkstraLoop]
    cases hp : pickMin s.dist (unsettledF g.n s) with
    | none => exact h
    | some u => exact ih _ (inv_step hw hwf h hp).1

theorem loop_settles {g : CSRGraph} {source : ℕ}
    (hw : ∀ w ∈ g.weights, 0 ≤ w) (hwf : ∀ v ∈ g.neighbors, v < g.n) :
    ∀ (fuel : ℕ) (s : SsspState), Inv g source s → g.n ≤ fuel + s.order.length →
      unsettledF g.n (dijkstraLoop g fuel s) = [] := by
  intro fuel
  induction fuel with
  | zero =>
    intro s hinv hle
    rw [dijkstraLoop, unsettledF, List.filter_eq_nil_iff]
    intro v hv
    rw [List.mem_range] at hv
    have hmem : v ∈ s.order := by
      have hsub : s.order.toFinset ⊆ Finset.range g.n := by
        intro x hx
        rw [List.mem_toFinset] at hx
        rw [Finset.mem_range]
        exact hinv.order_lt x hx
      have hcard : (Finset.range g.n).card ≤ s.order.toFinset.card := by
        rw [Finset.card_range, List.toFinset_card_of_nodup hinv.nodup]
        omega
      have heq := Finset.eq_of_subset_of_card_le hsub hcard
      rw [← List.mem_toFinset, heq, Finset.mem_range]
      exact hv
    simp [List.contains, List.elem_eq_mem, hmem]
  | succ fuel ih =>
    intro s hinv hle
    rw [dijkstraLoop]
    cases hp : pickMin s.dist (unsettledF g.n s) with
    | none => exact pickMin_none hp
    | some u =>
      obtain ⟨hinv2, hord⟩ := inv_step hw hwf hinv hp
      refine ih _ hinv2 ?_
      rw [hord, List.length_append, List.length_singleton]
      omega

theorem final_settled {g : CSRGraph} {s : SsspState}
    (hempty : unsettledF g.n s = []) :
    ∀ v, v < g.n → s.dist v ≠ none → v ∈ s.order := by
  intro v hv hd
  by_contra hns
  have hmem : v ∈ unsettledF g.n s := unsettledF_mem.2 ⟨hv, hns, hd⟩
  rw [hempty] at hmem
  exact absurd hmem (List.not_mem_nil v)

theorem final_local_opt {g : CSRGraph} {source : ℕ} {s : SsspState}
    (hinv : Inv g source s) (hempty : unsettledF g.n s = []) :
    ∀ u, u < g.n → ∀ e ∈ outEdges g u,
      toW (s.dist e.1) ≤ toW (s.dist u) + (e.2 : WithTop ℚ) := by
  intro u hu e he
  by_cases hd : s.dist u = none
  · rw [hd, toW_none, top_add]
    exact le_top
  · exact hinv.relaxed u (final_settled hempty u hu hd) e he

theorem sssp_ok_elim {g : CSRGraph} {source : ℕ} {da : DistanceArray}
    (hok : sssp g source = .ok da) :
    source < g.n ∧ (∀ w ∈ g.weights, 0 ≤ w) ∧
    da.distance = (List.range g.n).map (loopState g source).dist ∧
    da.predecessor = (List.range g.n).map (loopState g source).pred := by
  rw [sssp] at hok
  by_cases h1 : g.n ≤ source
  · rw [if_pos h1] at hok
    exact absurd hok (by simp)
  · rw [if_neg h1] at hok
    by_cases h2 : g.weights.any (fun w => decide (w < 0)) = true
    · rw [if_pos h2] at hok
      exact absurd hok (by simp)
    · rw [if_neg h2] at hok
      simp only [Except.ok.injEq] at hok
      refine ⟨by omega, ?_, ?_, ?_⟩
      · intro w hw
        by_contra hneg
        refine h2 (List.any_eq_true.2 ⟨w, hw, ?_⟩)
        simp only [decide_eq_true_eq]
        linarith
      · rw [← hok]
      · rw [← hok]

theorem sssp_loop_inv {g : CSRGraph} {source : ℕ} {da : DistanceArray}
    (hwf : ∀ v ∈ g.neighbors, v < g.n) (hok : sssp g source = .ok da) :
    Inv g source (loopState g source) ∧ unsettledF g.n (loopState g source) = [] := by
  obtain ⟨hsrc, hw, _, _⟩ := sssp_ok_elim hok
  constructor
  · exact inv_loop hw hwf g.n _ (initState_inv g source hsrc)
  · refine loop_settles hw hwf g.n _ (initState_inv g source hsrc) ?_
    rw [initState_order]
    simp

theorem distOf_bridge {g : CSRGraph} {source : ℕ} {da : DistanceArray}
    (hok : sssp g source = .ok da) (v : ℕ) (hv : v < g.n) :
    distOf da v = (loopState g source).dist v := by
  obtain ⟨_, _, hd, _⟩ := sssp_ok_elim hok
  rw [distOf, hd, List.getD_eq_getElem _ _ (by simpa using hv), List.getElem_map,
    List.getElem_range]

theorem distOf_big {g : CSRGraph} {source : ℕ} {da : DistanceArray}
    (hok : sssp g source = .ok da) (v : ℕ) (hv : g.n ≤ v) :
    distOf da v = none := by
  obtain ⟨_, _, hd, _⟩ := sssp_ok_elim hok
  rw [distOf, hd, List.getD_eq_default]
  simpa using hv

theorem predOf_bridge {g : CSRGraph} {source : ℕ} {da : DistanceArray}
    (hok : sssp g source = .ok da) (v : ℕ) (hv : v < g.n) :
    predOf da v = (loopState g source).pred v := by
  obtain ⟨_, _, _, hp⟩ := sssp_ok_elim hok
  rw [predOf, hp, List.getD_eq_getElem _ _ (by simpa using hv), List.getElem_map,
    List.getElem_range]

theorem distance_length {g : CSRGraph} {source : ℕ} {da : DistanceArray}
    (hok : sssp g source = .ok da) : da.distance.length = g.n := by
  obtain ⟨_, _, hd, _⟩ := sssp_ok_elim hok
  rw [hd]
  simp

/-- C1: for every CSR graph with non-negative edge weights (any negative
weight makes `sssp` fail, so success implies non-negativity) and every valid
source, the `DistanceArray` produced by SSSP satisfies:
`distance[source] = 0`; every reachable vertex `v` other than the source has
a predecessor `u` joined to `v` by an edge of weight `w` with
`distance[v] = distance[u] + w`; and at termination no distance can be
lowered by relaxing any remaining edge. -/
theorem sssp_correct (g : CSRGraph) (source : ℕ) (da : DistanceArray)
    (hwf : ∀ v ∈ g.neighbors, v < g.n) (hok : sssp g source = .ok da) :
    distOf da source = some 0 ∧
    (∀ v q, distOf da v = some q → v ≠ source →
      ∃ u w, predOf da v = some u ∧ (v, w) ∈ outEdges g u ∧
        distOf da v = oadd (distOf da u) w) ∧
    (∀ u, u < g.n → ∀ e ∈ outEdges g u,
      olt (oadd (distOf da u) e.2) (distOf da e.1) = false) := by
  obtain ⟨hsrc, hw, _, _⟩ := sssp_ok_elim hok
  obtain ⟨hinv, hempty⟩ := sssp_loop_inv hwf hok
  refine ⟨?_, ?_, ?_⟩
  · rw [distOf_bridge hok source hsrc, hinv.dist_source]
  · intro v q hv hvs
    have hvn : v < g.n := by
      by_contra hge
      rw [distOf_big hok v (by omega)] at hv
      exact absurd hv (by simp)
    rw [distOf_bridge hok v hvn] at hv
    have hfin : (loopState g source).dist v ≠ none := by
      rw [hv]
      simp
    have hpred := hinv.pred_fin v hvs hfin
    obtain ⟨u, hu⟩ := Option.ne_none_iff_exists'.1 hpred
    obtain ⟨w, hmem, heq⟩ := hinv.tree v u hu
    have hun : u < g.n := hinv.order_lt u (hinv.anc v u hu).1
    refine ⟨u, w, ?_, hmem, ?_⟩
    · rw [predOf_bridge hok v hvn, hu]
    · rw [distOf_bridge hok v hvn, distOf_bridge hok u hun, heq]
  · intro u hu e he
    have he1n : e.1 < g.n := hwf e.1 (outEdges_mem he).1
    rw [olt_false_iff, toW_oadd, distOf_bridge hok u hu, distOf_bridge hok e.1 he1n]
    exact final_local_opt hinv hempty u hu e he

attribute [local semireducible] Rat.add in
/-- Witness for C1: the correctness conjunction instantiated on the
three-vertex line graph from source `0`. -/
theorem sssp_correct_witness :
    distOf lineDA 0 = some 0 ∧
    (∀ v q, distOf lineDA v = some q → v ≠ 0 →
      ∃ u w, predOf lineDA v = some u ∧ (v, w) ∈ outEdges lineG u ∧
        distOf lineDA v = oadd (distOf lineDA u) w) ∧
    (∀ u, u < lineG.n → ∀ e ∈ outEdges lineG u,
      olt (oadd (distOf lineDA u) e.2) (distOf lineDA e.1) = false) :=
  sssp_correct lineG 0 lineDA (by decide) rfl

/-! ## Path reconstruction round-trip -/

theorem isEdgePath_concat {g : CSRGraph} :
    ∀ (p : List ℕ) (ws : List ℚ) (u v : ℕ) (w : ℚ),
      isEdgePath g p ws → p.getLast? = some u → (v, w) ∈ outEdges g u →
      isEdgePath g (p ++ [v]) (ws ++ [w]) := by
  intro p
  induction p with
  | nil =>
    intro ws u v w h _ _
    cases ws with
    | nil => exact h.elim
    | cons w0 ws => exact h.elim
  | cons a p ih =>
    intro ws u v w h hl he
    cases p with
    | nil =>
      cases ws with
      | nil =>
        rw [List.getLast?_singleton, Option.some.injEq] at hl
        exact ⟨hl ▸ he, trivial⟩
      | cons w0 ws => exact h.elim
    | cons b p =>
      cases ws with
      | nil => exact h.elim
      | cons w0 ws =>
        obtain ⟨hedge, hrest⟩ := h
        have hl2 : (b :: p).getLast? = some u := by
          rw [← List.getLast?_cons_cons]
          exact hl
        exact ⟨hedge, ih ws u v w hrest hl2 he⟩

theorem walk_spec {g : CSRGraph} {source : ℕ} {s : SsspState} (hinv : Inv g source s) :
    ∀ k t dt, s.dist t = some dt → t ∈ s.order → s.order.indexOf t ≤ k →
      ∀ fuel, s.order.indexOf t ≤ fuel →
        (walkPred s.pred fuel t).head? = some source ∧
        (walkPred s.pred fuel t).getLast? = some t ∧
        ∃ ws, isEdgePath g (walkPred s.pred fuel t) ws ∧ ws.sum = dt := by
  intro k
  induction k with
  | zero =>
    intro t dt hdt htmem hidx fuel _
    cases hp : s.pred t with
    | some u =>
      have h2 := (hinv.anc t u hp).2 htmem
      omega
    | none =>
      have ht_src : t = source := by
        by_contra hne
        exact hinv.pred_fin t hne (by rw [hdt]; simp) hp
      have hdt0 : dt = 0 := by
        have h0 := hinv.dist_source
        rw [← ht_src, hdt, Option.some.injEq] at h0
        exact h0
      have hwalk : walkPred s.pred fuel t = [t] := by
        cases fuel with
        | zero => rfl
        | succ f => rw [walkPred, hp]
      refine ⟨?_, ?_, [], ?_, ?_⟩
      · rw [hwalk, ht_src]
        rfl
      · rw [hwalk]
        rfl
      · rw [hwalk]
        trivial
      · simp [hdt0]
  | succ k ih =>
    intro t dt hdt htmem hidx fuel hfuel
    cases hp : s.pred t with
    | none =>
      have ht_src : t = source := by
        by_contra hne
        exact hinv.pred_fin t hne (by rw [hdt]; simp) hp
      have hdt0 : dt = 0 := by
        have h0 := hinv.dist_source
        rw [← ht_src, hdt, Option.some.injEq] at h0
        exact h0
      have hwalk : walkPred s.pred fuel t = [t] := by
        cases fuel with
        | zero => rfl
        | succ f => rw [walkPred, hp]
      refine ⟨?_, ?_, [], ?_, ?_⟩
      · rw [hwalk, ht_src]
        rfl
      · rw [hwalk]
        rfl
      · rw [hwalk]
        trivial
      · simp [hdt0]
    | some u =>
      obtain ⟨w, hmem, heq⟩ := hinv.tree t u hp
      obtain ⟨humem, hult⟩ := hinv.anc t u hp
      have hidxu : s.order.indexOf u < s.order.indexOf t := hult htmem
      have hdu : ∃ du, s.dist u = some du := by
        cases hc : s.dist u with
        | none =>
          rw [hc, hdt] at heq
          exact absurd heq (by simp [oadd])
        | some du => exact ⟨du, rfl⟩
      obtain ⟨du, hdu⟩ := hdu
      have hdtw : dt = du + w := by
        rw [hdt, hdu] at heq
        simp only [oadd, Option.some.injEq] at heq
        exact heq
      cases fuel with
      | zero => omega
      | succ f =>
        obtain ⟨hh, hl, ws, hpath, hsum⟩ :=
          ih u du hdu humem (by omega) f (by omega)
        have hwalk : walkPred s.pred (f + 1) t = walkPred s.pred f u ++ [t] := by
          rw [walkPred, hp]
        rw [hwalk]
        refine ⟨?_, List.getLast?_concat _, ws ++ [w], ?_, ?_⟩
        · rw [List.head?_append, hh]
          rfl
        · exact isEdgePath_concat _ ws u t w hpath hl hmem
        · rw [List.sum_append, hsum]
          simp [hdtw]

theorem predecessor_length {g : CSRGraph} {source : ℕ} {da : DistanceArray}
    (hok : sssp g source = .ok da) : da.predecessor.length = g.n := by
  obtain ⟨_, _, _, hp⟩ := sssp_ok_elim hok
  rw [hp]
  simp

theorem order_length_le {g : CSRGraph} {source : ℕ} {s : SsspState}
    (hinv : Inv g source s) : s.order.length ≤ g.n := by
  have hcard := List.toFinset_card_of_nodup hinv.nodup
  have hsub : s.order.toFinset ⊆ Finset.range g.n := by
    intro x hx
    rw [List.mem_toFinset] at hx
    rw [Finset.mem_range]
    exact hinv.order_lt x hx
  have hle := Finset.card_le_card hsub
  rw [hcard, Finset.card_range] at hle
  exact hle

theorem predOf_eq_loop {g : CSRGraph} {source : ℕ} {da : DistanceArray}
    (hwf : ∀ v ∈ g.neighbors, v < g.n) (hok : sssp g source = .ok da) :
    predOf da = (loopState g source).pred := by
  obtain ⟨hinv, _⟩ := sssp_loop_inv hwf hok
  funext v
  by_cases hv : v < g.n
  · exact predOf_bridge hok v hv
  · have h1 : predOf da v = none := by
      rw [predOf, List.getD_eq_default]
      rw [predecessor_length hok]
      omega
    have h2 : (loopState g source).pred v = none := by
      cases hp : (loopState g source).pred v with
      | none => rfl
      | some u =>
        obtain ⟨w, _, heqd⟩ := hinv.tree v u hp
        have hu : u ∈ (loopState g source).order := (hinv.anc v u hp).1
        have hdu := hinv.order_fin u hu
        have hdv : (loopState g source).dist v ≠ none := by
          rw [heqd]
          exact oadd_ne_none hdu
        exact absurd (hinv.fin_lt v hdv) hv
    rw [h1, h2]

/-- C6: for every `DistanceArray` produced by SSSP and every target `t`
reachable from the source (finite `distance[t]`), path reconstruction
returns a sequence that starts at the source, ends at `t`, and whose
consecutive vertices are joined by edges of the graph whose weights sum to
`distance[t]`. -/
theorem sssp_path_roundtrip (g : CSRGraph) (source : ℕ) (da : DistanceArray) (t : ℕ) (dt : ℚ)
    (hwf : ∀ v ∈ g.neighbors, v < g.n) (hok : sssp g source = .ok da)
    (ht : distOf da t = some dt) :
    (reconstructPath da t).head? = some source ∧
    (reconstructPath da t).getLast? = some t ∧
    ∃ ws, isEdgePath g (reconstructPath da t) ws ∧ ws.sum = dt := by
  obtain ⟨hinv, hempty⟩ := sssp_loop_inv hwf hok
  have htn : t < g.n := by
    by_contra hge
    rw [distOf_big hok t (by omega)] at ht
    exact absurd ht (by simp)
  rw [distOf_bridge hok t htn] at ht
  have htmem : t ∈ (loopState g source).order :=
    final_settled hempty t htn (by rw [ht]; simp)
  have hfuel : reconstructPath da t = walkPred (loopState g source).pred g.n t := by
    rw [reconstructPath, predOf_eq_loop hwf hok, distance_length hok]
  have hidx : (loopState g source).order.indexOf t ≤ g.n := by
    have h1 := List.indexOf_lt_length.2 htmem
    have h2 := order_length_le hinv
    omega
  rw [hfuel]
  exact walk_spec hinv g.n t dt ht htmem hidx g.n hidx

attribute [local semireducible] Rat.add in
/-- Witness for C6: the reconstructed path to vertex `2` on the line graph
runs from the source to the target with edge weights summing to its
distance. -/
theorem sssp_path_roundtrip_witness :
    (reconstructPath lineDA 2).head? = some 0 ∧
    (reconstructPath lineDA 2).getLast? = some 2 ∧
    ∃ ws, isEdgePath lineG (reconstructPath lineDA 2) ws ∧ ws.sum = 2 :=
  sssp_path_roundtrip lineG 0 lineDA 2 2 (by decide) rfl (by decide)

/-! ## Unit-weight distances and the notebook's backward walk -/

theorem getD_set_self {α : Type} (l : List α) (i : ℕ) (a d : α) (h : i < l.length) :
    (l.set i a).getD i d = a := by
  rw [List.getD_eq_getElem?_getD, List.getElem?_set, if_pos rfl, if_pos h]
  rfl

theorem getD_set_ne {α : Type} (l : List α) (i j : ℕ) (a d : α) (h : i ≠ j) :
    (l.set i a).getD j d = l.getD j d := by
  rw [List.getD_eq_getElem?_getD, List.getElem?_set, if_neg h, List.getD_eq_getElem?_getD]

theorem unit_weight_chain {g : CSRGraph} {source : ℕ} {s : SsspState}
    (hinv : Inv g source s) (h1 : ∀ w ∈ g.weights, w = 1) :
    ∀ k v dv, s.dist v = some dv → v ∈ s.order → s.order.indexOf v ≤ k →
      ∃ m : ℕ, dv = m ∧
        (0 < m → ∃ u, s.pred v = some u ∧ s.dist u = some ((m : ℚ) - 1)) := by
  intro k
  induction k with
  | zero =>
    intro v dv hdv hvm hidx
    cases hp : s.pred v with
    | some u =>
      have h2 := (hinv.anc v u hp).2 hvm
      omega
    | none =>
      have hv_src : v = source := by
        by_contra hne
        exact hinv.pred_fin v hne (by rw [hdv]; simp) hp
      have hdv0 : dv = 0 := by
        have h0 := hinv.dist_source
        rw [← hv_src, hdv, Option.some.injEq] at h0
        exact h0
      exact ⟨0, by exact_mod_cast hdv0, fun h => absurd h (by omega)⟩
  | succ k ih =>
    intro v dv hdv hvm hidx
    cases hp : s.pred v with
    | none =>
      have hv_src : v = source := by
        by_contra hne
        exact hinv.pred_fin v hne (by rw [hdv]; simp) hp
      have hdv0 : dv = 0 := by
        have h0 := hinv.dist_source
        rw [← hv_src, hdv, Option.some.injEq] at h0
        exact h0
      exact ⟨0, by exact_mod_cast hdv0, fun h => absurd h (by omega)⟩
    | some u =>
      obtain ⟨w, hmem, heq⟩ := hinv.tree v u hp
      have hw1 : w = 1 := h1 w (outEdges_mem hmem).2
      obtain ⟨humem, hult⟩ := hinv.anc v u hp
      have hidxu := hult hvm
      have hdu : ∃ du, s.dist u = some du := by
        cases hc : s.dist u with
        | none =>
          rw [hc, hdv] at heq
          exact absurd heq (by simp [oadd])
        | some du => exact ⟨du, rfl⟩
      obtain ⟨du, hdu⟩ := hdu
      have hdvw : dv = du + 1 := by
        rw [hdv, hdu] at heq
        simp only [oadd, Option.some.injEq] at heq
        rw [heq, hw1]
      obtain ⟨m, hm, _⟩ := ih u du hdu humem (by omega)
      refine ⟨m + 1, ?_, fun _ => ⟨u, rfl, ?_⟩⟩
      · rw [hdvw, hm]
        push_cast
        ring
      · rw [hdu, hm, Option.some.injEq]
        push_cast
        ring

theorem intOf_natCast (m : ℕ) : intOf (some ((m : ℕ) : ℚ)) = m := by
  have hnum : ((m : ℕ) : ℚ).num = (m : ℤ) := Rat.num_natCast m
  have hden : ((m : ℕ) : ℚ).den = 1 := Rat.den_natCast m
  rw [intOf, hnum, hden]
  simp

theorem distOf_eq_loop {g : CSRGraph} {source : ℕ} {da : DistanceArray}
    (hwf : ∀ v ∈ g.neighbors, v < g.n) (hok : sssp g source = .ok da) :
    ∀ v, distOf da v = (loopState g source).dist v := by
  obtain ⟨hinv, _⟩ := sssp_loop_inv hwf hok
  intro v
  by_cases hv : v < g.n
  · exact distOf_bridge hok v hv
  · rw [distOf_big hok v (by omega)]
    cases hd : (loopState g source).dist v with
    | none => rfl
    | some q => exact absurd (hinv.fin_lt v (by rw [hd]; simp)) hv

theorem nbLoop_spec {dist : ℕ → Option ℚ} {pred : ℕ → Option ℕ}
    (hdec : ∀ v m, dist v = some (((m + 1 : ℕ) : ℚ)) →
      ∃ u, pred v = some u ∧ dist u = some ((m : ℕ) : ℚ)) :
    ∀ (k : ℕ) (v : ℕ) (path : List (Option ℕ)) (D : ℕ),
      dist v = some ((k : ℕ) : ℚ) → k ≤ D → path.length = D + 1 →
      (∀ i, k ≤ i → i ≤ D → (path.getD i none).isSome = true) →
      (∀ extra, nbLoop dist pred (k + extra) v k path = nbLoop dist pred k v k path) ∧
      (nbLoop dist pred k v k path).length = D + 1 ∧
      (∀ i, i ≤ D → ((nbLoop dist pred k v k path).getD i none).isSome = true) := by
  intro k
  induction k with
  | zero =>
    intro v path D hv hkD hlen hslots
    have hstop : ∀ fuel, nbLoop dist pred fuel v 0 path = path := by
      intro fuel
      cases fuel with
      | zero => rfl
      | succ f =>
        rw [nbLoop]
        simp
    refine ⟨fun extra => by rw [hstop, hstop], ?_, ?_⟩
    · rw [hstop]
      exact hlen
    · intro i hi
      rw [hstop]
      exact hslots i (by omega) hi
  | succ k ih =>
    intro v path D hv hkD hlen hslots
    obtain ⟨u, hpu, hdu⟩ := hdec v k hv
    have hint : intOf (dist u) = k := by
      rw [hdu]
      exact intOf_natCast k
    have hstep : ∀ fuel, nbLoop dist pred (fuel + 1) v (k + 1) path =
        nbLoop dist pred fuel u k (path.set k (some u)) := by
      intro fuel
      rw [nbLoop, if_pos (by omega), hpu]
      show nbLoop dist pred fuel u (intOf (dist u)) (path.set (intOf (dist u)) (some u)) =
        nbLoop dist pred fuel u k (path.set k (some u))
      rw [hint]
    have hlen2 : (path.set k (some u)).length = D + 1 := by
      rw [List.length_set]
      exact hlen
    have hslots2 : ∀ i, k ≤ i → i ≤ D →
        ((path.set k (some u)).getD i none).isSome = true := by
      intro i hki hiD
      by_cases hik : i = k
      · rw [hik, getD_set_self _ _ _ _ (by omega)]
        rfl
      · rw [getD_set_ne _ _ _ _ _ (fun h => hik h.symm)]
        exact hslots i (by omega) hiD
    obtain ⟨hfe, hl2, hs2⟩ := ih u (path.set k (some u)) D hdu (by omega) hlen2 hslots2
    refine ⟨?_, ?_, ?_⟩
    · intro extra
      have harith : k + 1 + extra = (k + extra) + 1 := by omega
      rw [harith, hstep (k + extra), hfe extra, ← hstep k]
    · rw [hstep k]
      exact hl2
    · intro i hi
      rw [hstep k]
      exact hs2 i hi

/-- C10: when every edge weight is `1`, every vertex with finite positive
distance `d` has a predecessor at distance exactly `d - 1`; consequently the
notebook's backward walk, storing each visited vertex at the slot equal to
its integer distance in an array of length `d(target) + 1`, fills every slot
with no `None` remaining and needs exactly `d(target)` predecessor steps
(running it with any extra fuel beyond `d(target)` changes nothing). -/
theorem sssp_unit_weight_walk (g : CSRGraph) (source : ℕ) (da : DistanceArray)
    (t : ℕ) (q : ℚ)
    (hwf : ∀ v ∈ g.neighbors, v < g.n) (h1 : ∀ w ∈ g.weights, w = 1)
    (hok : sssp g source = .ok da) (ht : distOf da t = some q) :
    (∀ v qv, distOf da v = some qv → 0 < qv →
      ∃ u, predOf da v = some u ∧ distOf da u = some (qv - 1)) ∧
    ∃ m : ℕ, q = m ∧
      (nbPathDA da t).length = m + 1 ∧
      (∀ i, i ≤ m → ((nbPathDA da t).getD i none).isSome = true) ∧
      (∀ extra, nbWalk (distOf da) (predOf da) (m + extra) t = nbPathDA da t) := by
  obtain ⟨hinv, hempty⟩ := sssp_loop_inv hwf hok
  have hbridge := distOf_eq_loop hwf hok
  have hpbridge := predOf_eq_loop hwf hok
  have hchain : ∀ v qv, distOf da v = some qv →
      ∃ m : ℕ, qv = m ∧
        (0 < m → ∃ u, predOf da v = some u ∧ distOf da u = some ((m : ℚ) - 1)) := by
    intro v qv hv
    have hvn : v < g.n := by
      by_contra hge
      rw [distOf_big hok v (by omega)] at hv
      exact absurd hv (by simp)
    rw [hbridge v] at hv
    have hvm : v ∈ (loopState g source).order :=
      final_settled hempty v hvn (by rw [hv]; simp)
    obtain ⟨m, hm, hstep⟩ := unit_weight_chain hinv h1
      ((loopState g source).order.indexOf v) v qv hv hvm (le_refl _)
    refine ⟨m, hm, fun hpos => ?_⟩
    obtain ⟨u, hpu, hdu⟩ := hstep hpos
    have hun : u < g.n := hinv.fin_lt u (by rw [hdu]; simp)
    refine ⟨u, ?_, ?_⟩
    · rw [hpbridge]
      exact hpu
    · rw [hbridge u]
      exact hdu
  have hpart1 : ∀ v qv, distOf da v = some qv → 0 < qv →
      ∃ u, predOf da v = some u ∧ distOf da u = some (qv - 1) := by
    intro v qv hv hpos
    obtain ⟨m, hm, hstep⟩ := hchain v qv hv
    have hmpos : 0 < m := by
      by_contra hz
      rw [hm] at hpos
      have : m = 0 := by omega
      rw [this] at hpos
      simp at hpos
    obtain ⟨u, hpu, hdu⟩ := hstep hmpos
    refine ⟨u, hpu, ?_⟩
    rw [hdu, hm]
  refine ⟨hpart1, ?_⟩
  obtain ⟨m, hm, _⟩ := hchain t q ht
  have hdec : ∀ v mv, distOf da v = some (((mv + 1 : ℕ) : ℚ)) →
      ∃ u, predOf da v = some u ∧ distOf da u = some ((mv : ℕ) : ℚ) := by
    intro v mv hv
    obtain ⟨u, hpu, hdu⟩ := hpart1 v _ hv (by positivity)
    refine ⟨u, hpu, ?_⟩
    rw [hdu]
    congr 1
    push_cast
    ring
  have hqt : distOf da t = some ((m : ℕ) : ℚ) := by
    rw [ht, hm]
  have hint : intOf (distOf da t) = m := by
    rw [hqt]
    exact intOf_natCast m
  have hp0len : ((List.replicate (m + 1) (none : Option ℕ)).set m (some t)).length
      = m + 1 := by
    rw [List.length_set, List.length_replicate]
  have hp0slots : ∀ i, m ≤ i → i ≤ m →
      ((((List.replicate (m + 1) (none : Option ℕ)).set m (some t))).getD i none).isSome
        = true := by
    intro i h1i h2i
    have hi : i = m := by omega
    rw [hi, getD_set_self _ _ _ _ (by rw [List.length_replicate]; omega)]
    rfl
  obtain ⟨hfe, hlen, hslots⟩ :=
    nbLoop_spec hdec m t ((List.replicate (m + 1) none).set m (some t)) m
      hqt (le_refl m) hp0len hp0slots
  have hpath_eq : nbPathDA da t =
      nbLoop (distOf da) (predOf da) m t m
        ((List.replicate (m + 1) none).set m (some t)) := by
    rw [nbPathDA, nbPath, nbWalk, hint]
  refine ⟨m, hm, ?_, ?_, ?_⟩
  · rw [hpath_eq]
    exact hlen
  · intro i hi
    rw [hpath_eq]
    exact hslots i hi
  · intro extra
    rw [nbWalk, hint, hpath_eq]
    exact hfe extra

attribute [local semireducible] Rat.add in
/-- Witness for C10: the unit-weight walk conjunction instantiated on the
line graph with target `2` (distance `2`). -/
theorem sssp_unit_weight_walk_witness :
    (∀ v qv, distOf lineDA v = some qv → 0 < qv →
      ∃ u, predOf lineDA v = some u ∧ distOf lineDA u = some (qv - 1)) ∧
    ∃ m : ℕ, (2 : ℚ) = m ∧
      (nbPathDA lineDA 2).length = m + 1 ∧
      (∀ i, i ≤ m → ((nbPathDA lineDA 2).getD i none).isSome = true) ∧
      (∀ extra, nbWalk (distOf lineDA) (predOf lineDA) (m + extra) 2 = nbPathDA lineDA 2) :=
  sssp_unit_weight_walk lineG 0 lineDA 2 2 (by decide) (by decide) rfl (by decide)

end Cugraph
